import Mathlib

/-!
Verification of the AutoPPT (PPT Automation) repository against its
natural-language specification.

The repository ships the backend as documentation (`application.md`, the
README) plus a React/TypeScript frontend.  The backend Python modules
(`utils/placeholder_analyzer.py`, `core/automation.py`, `core/generator.py`,
`core/slides_client.py`) are not part of the source tree, so the pipeline
components they implement are modelled here from the specification's words;
each such definition carries a doc comment starting `Modelled from the spec:`.
The frontend components (`ProgressBar.tsx`, `App.tsx`) are present and are
embedded directly from their TypeScript source.

Strings are modelled as `String` (lists of characters), machine floats as `ℚ`,
and remote/stateful behaviour as explicit state passing.
-/

namespace AutoPPT

/-! ## Name Normalizer (modelled from spec §4.2 / application.md "Placeholder Analyzer")

`normalize` trims whitespace, strips leading/trailing quote characters
(including unicode smart quotes), maps unicode dash/quote variants to ASCII,
removes characters outside `[A-Za-z0-9 _-]`, and collapses whitespace runs to
one space. -/

/-- Modelled from the spec: the whitespace class trimmed/collapsed by the
normalizer (`utils/placeholder_analyzer.py` is absent from the tree). -/
def isSpaceChar (c : Char) : Bool :=
  c == ' ' || c == '\t' || c == '\n' || c == '\r'

/-- Modelled from the spec: quote characters stripped from the ends of a raw
token name, "including unicode smart quotes" (§4.2). -/
def isQuoteChar (c : Char) : Bool :=
  c == '\'' || c == '"' || c == '‘' || c == '’' || c == '“' || c == '”'

/-- Modelled from the spec: the allowed character class `[A-Za-z0-9 _-]`
(application.md: "removes special chars except `[A-Za-z0-9 _-]`"). -/
def isAllowedChar (c : Char) : Bool :=
  ('A' ≤ c && c ≤ 'Z') || ('a' ≤ c && c ≤ 'z') || ('0' ≤ c && c ≤ '9') ||
    c == ' ' || c == '_' || c == '-'

/-- Modelled from the spec: "map unicode dash/quote variants to ASCII
equivalents" (§4.2). -/
def mapUnicodeChar (c : Char) : Char :=
  if c = '–' then '-'
  else if c = '—' then '-'
  else if c = '‘' then '\''
  else if c = '’' then '\''
  else if c = '“' then '"'
  else if c = '”' then '"'
  else c

/-- Drop matching characters from the end of a list. -/
def dropTrailing (p : Char → Bool) (l : List Char) : List Char :=
  (l.reverse.dropWhile p).reverse

/-- Modelled from the spec: "trim whitespace" (§4.2 step 1). -/
def trimWs (l : List Char) : List Char :=
  dropTrailing isSpaceChar (l.dropWhile isSpaceChar)

/-- Modelled from the spec: "strip leading/trailing quote characters" (§4.2
step 2). -/
def stripQuotes (l : List Char) : List Char :=
  dropTrailing isQuoteChar (l.dropWhile isQuoteChar)

/-- One pass of whitespace collapsing: `pend` records that a whitespace run
has been seen since the last emitted character, so a single `' '` separator is
emitted before the next non-space character.  Trailing runs emit nothing. -/
def collapseGo : List Char → Bool → List Char
  | [], _ => []
  | c :: rest, pend =>
    if isSpaceChar c then collapseGo rest true
    else (if pend then [' ', c] else [c]) ++ collapseGo rest false

/-- Modelled from the spec: "collapse runs of whitespace to one space" (§4.2
step 5), with the `' '.join(s.split())` semantics that also discards edge
whitespace — the reading under which the spec's own idempotence requirement
holds. -/
def collapseWs (l : List Char) : List Char :=
  collapseGo (l.dropWhile isSpaceChar) false

/-- Modelled from the spec: the §4.2 normalization steps, in order, on the
character list of a raw token name. -/
def normalizeChars (l : List Char) : List Char :=
  collapseWs (((stripQuotes (trimWs l)).map mapUnicodeChar).filter isAllowedChar)

/-- Modelled from the spec: `normalize(raw) -> canonical_name` (§4.2). -/
def normalize (s : String) : String :=
  String.mk (normalizeChars s.data)

/-- No whitespace character other than `' '` is followed by anything, every
`' '` is followed by a non-space character (hence no run of two spaces and no
trailing space). -/
def wellSpaced : List Char → Bool
  | [] => true
  | c :: rest =>
    (if isSpaceChar c then
      (match rest with
       | [] => false
       | d :: _ => !isSpaceChar d)
     else true) && wellSpaced rest

/-- Head of a non-empty list, `false` on the empty list, as a Bool test for
"starts with a whitespace character". -/
def headSp : List Char → Bool
  | [] => false
  | c :: _ => isSpaceChar c

/-! ## Generic string helpers shared by the embedded components -/

/-- Boolean test that `needle` is an initial segment of `hay`. -/
def startsWithL : List Char → List Char → Bool
  | [], _ => true
  | _ :: _, [] => false
  | c :: cs, d :: ds => (c == d) && startsWithL cs ds

/-- Boolean substring test on character lists. -/
def containsSubL (needle : List Char) : List Char → Bool
  | [] => needle.isEmpty
  | c :: rest => startsWithL needle (c :: rest) || containsSubL needle rest

/-- Substring test on strings (`hay.includes(needle)` / Python `in`). -/
def containsStr (hay needle : String) : Bool :=
  containsSubL needle.data hay.data

/-- Initial-segment test on strings. -/
def startsWithStr (needle hay : String) : Bool :=
  startsWithL needle.data hay.data

/-! ## ProcessedSet / mutation log (modelled from spec §3, §4.6) -/

/-- Identity of a visual element in the deck: `(slide_id, element_id)`. -/
structure ElemRef where
  slide_id : String
  element_id : String
deriving DecidableEq

/-- Modelled from the spec: the orchestrator in `core/automation.py` (absent
from the tree) "consults `ProcessedSet` before mutating, and inserts into
`ProcessedSet` after a successful mutation" (§4.6).  `runMutationLog processed
ops` returns the mutation log produced by attempting the candidate operations
`ops` in order, starting from an already-processed set `processed`. -/
def runMutationLog (processed : List ElemRef) : List ElemRef → List ElemRef
  | [] => []
  | e :: rest =>
    if e ∈ processed then runMutationLog processed rest
    else e :: runMutationLog (e :: processed) rest

/-! ## ContentPlan tiers (modelled from spec §3, §4.5) -/

/-- Resolved placeholder-key → value map, kept as an association list in
insertion order. -/
abbrev ContentPlan := List (String × String)

/-- First binding of `k` in the plan. -/
def planLookup : ContentPlan → String → Option String
  | [], _ => none
  | (k', v) :: rest, k => if k' = k then some v else planLookup rest k

/-- Modelled from the spec: "once a key is set it is not overwritten by a
lower-priority source" (§3, ContentPlan) — a tier entry is applied only when
the key is still unset. -/
def setIfAbsent (plan : ContentPlan) (k v : String) : ContentPlan :=
  if (planLookup plan k).isSome then plan else plan ++ [(k, v)]

/-- Apply one tier's entries in order, "each tier only filling keys not
already set" (§4.5). -/
def applyTier (plan : ContentPlan) (tier : List (String × String)) : ContentPlan :=
  tier.foldl (fun acc kv => setIfAbsent acc kv.1 kv.2) plan

/-- Modelled from the spec: the ContentPlan built from the five sources in
priority order "explicit override > AI comprehensive result > AI targeted
result > auto-fill rule > safe default" (§3). -/
def buildContentPlan (overrides comprehensive targeted autoFill defaults :
    List (String × String)) : ContentPlan :=
  applyTier (applyTier (applyTier (applyTier (applyTier [] overrides)
    comprehensive) targeted) autoFill) defaults

/-- Failure modes of the one-shot comprehensive generation request (§4.5 tier
2: "blocked response, malformed structure, transport error"). -/
inductive GenFailure
  | blocked
  | malformed
  | transport

/-- Modelled from the spec: `generate_comprehensive_content` returns `None` on
block/parse failure (application.md), and the builder then applies no entry
from this tier. -/
def comprehensiveTier : Except GenFailure (List (String × String)) →
    List (String × String)
  | .error _ => []
  | .ok entries => entries

/-- Modelled from the spec: the content-generation phase of a run; a
comprehensive-tier failure is consumed locally ("never propagates as a run
failure", §7b), so the phase always returns `.ok`. -/
def contentPhase (overrides : List (String × String))
    (comp : Except GenFailure (List (String × String)))
    (targeted autoFill defaults : List (String × String)) :
    Except GenFailure ContentPlan :=
  .ok (buildContentPlan overrides (comprehensiveTier comp) targeted autoFill defaults)

/-! ## Geometry-preserving image placement (modelled from spec §4.7, README
"Position Preservation" / "Dimension Handling") -/

/-- Geometry units used by the pipeline (README: IN/PT with EMU conversion,
1 inch = 914400 EMU = 72 PT). -/
inductive DimUnit
  | IN
  | PT
  | EMU
deriving DecidableEq

/-- Stored placeholder size. -/
structure ElemSize where
  width : ℚ
  height : ℚ
  unit : DimUnit

/-- Element transform as stored by the Presentation Store
(`translate_x, translate_y, scale_x, scale_y, rotate`). -/
structure Transform where
  translate_x : ℚ
  translate_y : ℚ
  scale_x : ℚ
  scale_y : ℚ
  rotate : ℚ

/-- Geometry of an image placeholder as read from the template. -/
structure PlaceholderGeom where
  size : ElemSize
  transform : Transform

/-- New image element created by the placer: exact pixel dimensions plus the
copied transform. -/
structure PlacedImage where
  width_px : ℤ
  height_px : ℤ
  transform : Transform

/-- Modelled from the spec: inch dimensions are converted to exact pixels at
72 px per inch (README: "Dimensions converted from IN/PT to pixels (72 DPI:
1 inch = 72 pixels)"), rounding to whole pixels. -/
def inchesToPixels (x : ℚ) : ℤ :=
  round (x * 72)

/-- Convert a pixel count back to inches at 72 px per inch. -/
def pixelsToInches (px : ℤ) : ℚ :=
  (px : ℚ) / 72

/-- Modelled from the spec: place an image for a placeholder — compute exact
target pixel dimensions from the stored inch size, deep-copy the original
transform onto the new element and normalize `scale_x = scale_y = 1.0` on the
copy only (§4.7; README "Position Preservation").  The second component is the
untouched source placeholder, making "only the copy, not the source" explicit
in this functional model. -/
def placeImage (ph : PlaceholderGeom) : PlacedImage × PlaceholderGeom :=
  ({ width_px := inchesToPixels ph.size.width,
     height_px := inchesToPixels ph.size.height,
     transform := { ph.transform with scale_x := 1, scale_y := 1 } }, ph)

/-! ## Hyperlink assignment and position tracking (modelled from spec §4.8,
README "Reference Links" / "Hyperlink Processing") -/

/-- Modelled from the spec: "zip the ordered URL list with the ordered
placeholder list — the k-th extracted URL binds to the k-th placeholder;
placeholders beyond the URL count receive no link" (§4.8). -/
def assignLinks : List String → List String → List (String × Option String)
  | _, [] => []
  | [], ph :: phs => (ph, none) :: assignLinks [] phs
  | u :: us, ph :: phs => (ph, some u) :: assignLinks us phs

/-- Element of a slide document: identifiers plus current text. -/
structure SlideElement where
  slide_id : String
  element_id : String
  text : String

/-- Document tree as read from the Presentation Store. -/
structure SlideDoc where
  elements : List SlideElement

/-- Modelled from the spec: hyperlink placeholders are detected by their
`\x7b\x7bfollow_reference_link_N\x7d\x7d` tokens in element text (README). -/
def isHyperlinkPlaceholderText (t : String) : Bool :=
  containsStr t "\x7b\x7bfollow_reference_link_"

/-- Modelled from the spec: "snapshot each hyperlink placeholder's
`(slide_id, element_id)`" before any text-replacement mutation (§4.8 step 3). -/
def hyperlinkSnapshot (d : SlideDoc) : List (String × String) :=
  (d.elements.filter (fun e => isHyperlinkPlaceholderText e.text)).map
    (fun e => (e.slide_id, e.element_id))

/-- Text replacement mutates element text in place; element identifiers are
not changed, but token text (and hence any re-scan for placeholders) is. -/
def applyTextReplacements (d : SlideDoc) (f : String → String) : SlideDoc :=
  { elements := d.elements.map (fun e => { e with text := f e.text }) }

/-- One link-apply mutation addressed at a snapshotted element. -/
structure LinkOp where
  slide_id : String
  element_id : String
  url : String
deriving DecidableEq

/-- Link-apply phase: bind the url list to the snapshotted element addresses
in order. -/
def linkApplyOps (snap : List (String × String)) (urls : List String) : List LinkOp :=
  (snap.zip urls).map (fun p => { slide_id := p.1.1, element_id := p.1.2, url := p.2 })

/-- Modelled from the spec: the link pipeline of a run — snapshot hyperlink
placeholder addresses first, then run text replacement, then emit link-apply
operations addressed only through the pre-mutation snapshot (§4.8; README
"Hyperlink Processing" steps 2 and 4). -/
def runLinksPhase (d : SlideDoc) (f : String → String) (urls : List String) :
    SlideDoc × List LinkOp :=
  let snap := hyperlinkSnapshot d
  let d' := applyTextReplacements d f
  (d', linkApplyOps snap urls)

/-! ## Type classifier (modelled from spec §4.3 / application.md "Placeholder
Analyzer") -/

/-- Semantic placeholder types inferred by the analyzer. -/
inductive PlaceholderType
  | IMAGE
  | COLOR
  | EMOJI
  | TITLE
  | SUBTITLE
  | PARAGRAPH
  | TEXT
deriving DecidableEq

/-- Modelled from the spec: the image family
`logo/companyLogo/image_1..3/backgroundImage/chart_1/scope_img*/d_i_image*`
(application.md), matched by exact name or prefix token. -/
def isImageFamilyName (n : String) : Bool :=
  n == "logo" || n == "companyLogo" || n == "image_1" || n == "image_2" ||
  n == "image_3" || n == "backgroundImage" || n == "chart_1" ||
  startsWithStr "scope_img" n || startsWithStr "d_i_image" n

/-- Rule 2: the name contains the substring `color`. -/
def containsColorName (n : String) : Bool :=
  containsStr n "color"

/-- Rule 3: a `logo*` name that is not the company-logo alias. -/
def isEmojiLogoName (n : String) : Bool :=
  startsWithStr "logo" n && !(n == "companyLogo")

/-- Subtitle names within the heading family. -/
def isSubtitleName (n : String) : Bool :=
  containsStr n "subtitle"

/-- Rule 4: heading/title/subtitle patterns. -/
def isHeadingName (n : String) : Bool :=
  startsWithStr "Heading" n || startsWithStr "side_Heading" n || containsStr n "title"

/-- Rule 5: paragraph/body patterns (`Head*_para`, `projectOverview`, body). -/
def isParagraphName (n : String) : Bool :=
  containsStr n "para" || n == "projectOverview" || containsStr n "body"

/-- Modelled from the spec: type inference for a canonical name with no
explicit mapping entry, by ordered rule precedence, first match wins (§4.3):
image family → IMAGE, then `color` substring → COLOR, then non-company
`logo_N` → EMOJI, then heading patterns → TITLE/SUBTITLE, then paragraph
patterns → PARAGRAPH, else TEXT. -/
def classifyName (n : String) : PlaceholderType :=
  if isImageFamilyName n then .IMAGE
  else if containsColorName n then .COLOR
  else if isEmojiLogoName n then .EMOJI
  else if isHeadingName n then (if isSubtitleName n then .SUBTITLE else .TITLE)
  else if isParagraphName n then .PARAGRAPH
  else .TEXT

/-! ## Frontend ProgressBar (embedded from
`src/frontend/src/components/ProgressBar.tsx`) -/

/-- Status prop of the `ProgressBar` component (ProgressBar.tsx lines 3-7). -/
inductive PBStatus
  | idle
  | queued
  | running
  | succeeded
  | failed

/-- Mutable state of the `ProgressBar` component relevant to progress:
the `progress` state, `lastProgressRef` and `progressHistoryRef`
(ProgressBar.tsx lines 10-15).  The displayed stage label is omitted. -/
structure PBState where
  progress : Nat
  lastProgress : Nat
  history : List Nat

/-- Lowercased join of the log lines (ProgressBar.tsx line 67:
`logs.join('\n').toLowerCase()`). -/
def logTextOf (logs : List String) : String :=
  String.mk ((String.intercalate "\n" logs).data.map Char.toLower)

/-- Log- and time-based progress estimate (ProgressBar.tsx lines 67-176):
starts at 5, raised by `Math.max` for each matched pipeline-step marker in the
log text, then by the elapsed-time fallback ladder. -/
def computeProgress (logs : List String) (elapsed : Nat) : Nat :=
  let t := logTextOf logs
  let p := 5
  let p := if containsStr t "step 1" || containsStr t "analyzing presentation" ||
      containsStr t "analyzing template" ||
      (containsStr t "found" && containsStr t "placeholders") then max p 15 else p
  let p := if containsStr t "step 2" || containsStr t "identifying maximum side_heading" ||
      containsStr t "maximum side_heading" ||
      containsStr t "side_heading placeholders" then max p 25 else p
  let p := if containsStr t "step 3" || containsStr t "deleting slides" ||
      containsStr t "slides to delete" ||
      containsStr t "re-analyzing presentation" then max p 35 else p
  let p := if containsStr t "step 4" || containsStr t "proceeding with content generation" ||
      (containsStr t "matched" && containsStr t "placeholders") then max p 45 else p
  let p := if containsStr t "step 4.1" || containsStr t "hyperlinked placeholders" ||
      (containsStr t "processing" && containsStr t "hyperlink") then max p 50 else p
  let p := if (containsStr t "fetching" && containsStr t "google sheets") ||
      containsStr t "sheets data" || containsStr t "analyzing project data" ||
      containsStr t "gemini" || containsStr t "sending project data" then max p 55 else p
  let p := if containsStr t "comprehensive content generation" ||
      containsStr t "generating comprehensive content" ||
      containsStr t "successfully generated comprehensive content" then max p 65 else p
  let p := if containsStr t "generating" &&
      (containsStr t "heading" || containsStr t "content" || containsStr t "bullet") &&
      !containsStr t "comprehensive" then max p 70 else p
  let p := if (containsStr t "generating" && containsStr t "image") ||
      containsStr t "downloading image" || containsStr t "uploading image" then max p 75 else p
  let p := if containsStr t "replacing" || containsStr t "replaced" ||
      (containsStr t "placeholder" &&
        (containsStr t "updated" || containsStr t "processed")) then max p 85 else p
  let p := if (containsStr t "applying" && containsStr t "styling") ||
      containsStr t "applying theme" ||
      (containsStr t "color" && containsStr t "applied") then max p 90 else p
  let p := if containsStr t "presentation generated successfully" ||
      containsStr t "successfully generated" || containsStr t "presentation url" ||
      containsStr t "finalizing" then max p 95 else p
  let p :=
    if 10 < elapsed ∧ p < 30 then max p (min 30 (10 + (elapsed - 10) / 5))
    else if 30 < elapsed ∧ p < 60 then max p (min 60 (30 + (elapsed - 30) / 3))
    else if 60 < elapsed ∧ p < 85 then max p (min 85 (60 + (elapsed - 60) / 2))
    else p
  p

/-- Smoothing applied on a recomputation while running (ProgressBar.tsx lines
178-199): an increase is capped at 10 points over `lastProgressRef`, a
decrease is discarded, and the history buffer keeps the last 10 values. -/
def runningUpdate (st : PBState) (calcp : Nat) : PBState :=
  if st.lastProgress < calcp then
    let allowed := min calcp (st.lastProgress + 10)
    let hist := st.history ++ [allowed]
    let hist := if 10 < hist.length then hist.tail else hist
    { progress := allowed, lastProgress := allowed, history := hist }
  else if calcp < st.lastProgress then
    { st with progress := st.lastProgress }
  else
    { st with progress := calcp, lastProgress := calcp }

/-- One run of the ProgressBar state effect (ProgressBar.tsx lines 31-203):
idle resets, queued shows 5, succeeded shows exactly 100, failed freezes at
`lastProgressRef`, and running recomputes through the smoothing step. -/
def pbUpdate (st : PBState) (status : PBStatus) (logs : List String)
    (elapsed : Nat) : PBState :=
  match status with
  | .idle => { progress := 0, lastProgress := 0, history := [] }
  | .queued => { st with progress := 5 }
  | .succeeded => { st with progress := 100 }
  | .failed => { st with progress := st.lastProgress }
  | .running => runningUpdate st (computeProgress logs elapsed)

/-! ## Frontend job polling (embedded from `src/frontend/src/App.tsx` lines
80-101 and `api.ts`) -/

/-- Server-reported job status (api.ts `JobStatus`). -/
inductive JobPhase
  | queued
  | running
  | succeeded
  | failed
deriving DecidableEq

/-- Fields of the `getJob` response used by the polling loop: `j.status` and
the optional chain `j?.result?.presentation_url`. -/
structure JobView where
  status : JobPhase
  presentation_url : Option String

/-- Component state touched by the polling effect: whether the interval is
still installed, plus the `status`, `logs` and `resultUrl` states. -/
structure AppPollState where
  active : Bool
  status : JobPhase
  logs : List String
  resultUrl : Option String

/-- JavaScript `x || null` on an optional string: the empty string is falsy
and also maps to `null`. -/
def orNullStr : Option String → Option String
  | none => none
  | some s => if s = "" then none else some s

/-- Outcome of one interval tick's requests: either both `getJob`/`getJobLogs`
results, or a thrown error. -/
abbrev PollResp := Except Unit (JobView × List String)

/-- One interval-callback execution (App.tsx lines 82-98): on error clear the
interval; otherwise store status and logs, and on `succeeded` store the result
URL and clear, on `failed` clear. -/
def pollStep (st : AppPollState) (resp : PollResp) : AppPollState :=
  match resp with
  | .error _ => { st with active := false }
  | .ok (j, l) =>
    let st1 := { st with status := j.status, logs := l }
    let st2 :=
      if j.status = JobPhase.succeeded then
        { st1 with resultUrl := orNullStr j.presentation_url, active := false }
      else st1
    if j.status = JobPhase.failed then { st2 with active := false } else st2

/-- Repeated interval ticks: each tick that still finds the interval installed
issues one `getJob`/`getJobLogs` request pair (counted) and processes its
response; once the interval is cleared no further tick does anything. -/
def pollLoop : AppPollState → List PollResp → AppPollState × Nat
  | st, [] => (st, 0)
  | st, r :: rest =>
    if st.active then
      let out := pollLoop (pollStep st r) rest
      (out.1, out.2 + 1)
    else (st, 0)

/-- Response that terminates polling: a thrown request error, or a job whose
status is `succeeded` or `failed`. -/
def isTerminalResp : PollResp → Bool
  | .error _ => true
  | .ok (j, _) => j.status == JobPhase.succeeded || j.status == JobPhase.failed

theorem dropWhile_eq_self_of_head (p : Char → Bool) (l : List Char)
    (h : ∀ c, l.head? = some c → p c = false) : l.dropWhile p = l := by
  cases l with
  | nil => rfl
  | cons a t => rw [List.dropWhile_cons, h a rfl]; simp

theorem head?_dropWhile_false (p : Char → Bool) (l : List Char) (c : Char)
    (h : (l.dropWhile p).head? = some c) : p c = false := by
  induction l with
  | nil => simp at h
  | cons a t ih =>
    rw [List.dropWhile_cons] at h
    by_cases hp : p a = true
    · rw [if_pos hp] at h; exact ih h
    · rw [if_neg hp] at h
      simp only [List.head?_cons, Option.some.injEq] at h
      rw [h] at hp
      exact Bool.eq_false_iff.mpr hp

theorem getLast?_dropTrailing_false (p : Char → Bool) (l : List Char) (c : Char)
    (h : (dropTrailing p l).getLast? = some c) : p c = false := by
  unfold dropTrailing at h
  rw [← List.head?_reverse, List.reverse_reverse] at h
  exact head?_dropWhile_false p l.reverse c h

theorem dropTrailing_eq_self (p : Char → Bool) (l : List Char)
    (h : ∀ c, l.getLast? = some c → p c = false) : dropTrailing p l = l := by
  unfold dropTrailing
  rw [dropWhile_eq_self_of_head p l.reverse, List.reverse_reverse]
  intro c hc
  exact h c (by rwa [List.head?_reverse] at hc)

theorem mem_of_mem_dropWhile (p : Char → Bool) (l : List Char) (c : Char)
    (h : c ∈ l.dropWhile p) : c ∈ l := by
  induction l with
  | nil => simp at h
  | cons a t ih =>
    rw [List.dropWhile_cons] at h
    by_cases hp : p a = true
    · rw [if_pos hp] at h; exact List.mem_cons_of_mem a (ih h)
    · rwa [if_neg hp] at h

theorem mem_of_mem_dropTrailing (p : Char → Bool) (l : List Char) (c : Char)
    (h : c ∈ dropTrailing p l) : c ∈ l := by
  unfold dropTrailing at h
  rw [List.mem_reverse] at h
  exact List.mem_reverse.mp (mem_of_mem_dropWhile p l.reverse c h)

theorem collapseGo_mem (l : List Char) (pend : Bool) (c : Char)
    (h : c ∈ collapseGo l pend) : c = ' ' ∨ (c ∈ l ∧ isSpaceChar c = false) := by
  induction l generalizing pend with
  | nil => simp [collapseGo] at h
  | cons a t ih =>
    by_cases hs : isSpaceChar a = true
    · simp only [collapseGo, hs, if_true] at h
      rcases ih true h with h' | ⟨h1, h2⟩
      · exact Or.inl h'
      · exact Or.inr ⟨List.mem_cons_of_mem a h1, h2⟩
    · simp only [collapseGo, hs, if_false, Bool.false_eq_true, List.mem_append] at h
      rcases h with h | h
      · have hca : c = ' ' ∨ c = a := by
          cases pend <;> simp at h <;> tauto
        rcases hca with h' | h'
        · exact Or.inl h'
        · exact Or.inr ⟨h' ▸ List.mem_cons_self a t,
            h' ▸ Bool.eq_false_iff.mpr hs⟩
      · rcases ih false h with h' | ⟨h1, h2⟩
        · exact Or.inl h'
        · exact Or.inr ⟨List.mem_cons_of_mem a h1, h2⟩

theorem collapseGo_wellSpaced (l : List Char) (pend : Bool) :
    wellSpaced (collapseGo l pend) = true := by
  induction l generalizing pend with
  | nil => rfl
  | cons a t ih =>
    by_cases hs : isSpaceChar a = true
    · simp only [collapseGo, hs, if_true]
      exact ih true
    · cases pend with
      | false =>
        simpa [collapseGo, hs, wellSpaced] using ih false
      | true =>
        simpa [collapseGo, hs, wellSpaced] using ih false

theorem collapseGo_head? (l : List Char)
    (h : ∀ c, l.head? = some c → isSpaceChar c = false) :
    (collapseGo l false).head? = l.head? := by
  cases l with
  | nil => rfl
  | cons a t => simp [collapseGo, h a rfl]

theorem wellSpaced_cons (a : Char) (t : List Char) :
    wellSpaced (a :: t) =
      ((if isSpaceChar a then
          (match t with | [] => false | d :: _ => !isSpaceChar d)
        else true) && wellSpaced t) := rfl

theorem wellSpaced_tail (a : Char) (t : List Char)
    (hw : wellSpaced (a :: t) = true) : wellSpaced t = true := by
  rw [wellSpaced_cons, Bool.and_eq_true] at hw
  exact hw.2

theorem wellSpaced_getLast (l : List Char) (c : Char)
    (hw : wellSpaced l = true) (h : l.getLast? = some c) : isSpaceChar c = false := by
  induction l with
  | nil => simp at h
  | cons a t ih =>
    cases t with
    | nil =>
      have hac : a = c := by simpa using h
      subst hac
      by_cases hs : isSpaceChar a = true
      · rw [wellSpaced_cons, hs] at hw
        simp at hw
      · exact Bool.eq_false_iff.mpr hs
    | cons b t' =>
      rw [List.getLast?_cons_cons] at h
      exact ih (wellSpaced_tail a _ hw) h

theorem collapseGo_eq_self (l : List Char)
    (hw : wellSpaced l = true)
    (ha : ∀ c ∈ l, isSpaceChar c = true → c = ' ')
    (pend : Bool) :
    collapseGo l pend = if pend && !l.isEmpty && !headSp l then ' ' :: l else l := by
  induction l generalizing pend with
  | nil => cases pend <;> rfl
  | cons a t ih =>
    by_cases hs : isSpaceChar a = true
    · have ha' : a = ' ' := ha a (List.mem_cons_self a t) hs
      have hmatch : ∃ d t', t = d :: t' ∧ isSpaceChar d = false := by
        cases t with
        | nil =>
          rw [wellSpaced_cons, hs] at hw
          simp at hw
        | cons d t' =>
          refine ⟨d, t', rfl, ?_⟩
          rw [wellSpaced_cons, hs, Bool.and_eq_true] at hw
          simpa using hw.1
      obtain ⟨d, t', ht, hd⟩ := hmatch
      have hwt : wellSpaced t = true := wellSpaced_tail a t hw
      have hat : ∀ c ∈ t, isSpaceChar c = true → c = ' ' :=
        fun c hc => ha c (List.mem_cons_of_mem a hc)
      have hrec := ih hwt hat true
      simp only [collapseGo, hs, if_true]
      rw [hrec, ht]
      simp [headSp, hd, ha', ht, hs, (by decide : isSpaceChar ' ' = true)]
    · have hwt : wellSpaced t = true := wellSpaced_tail a t hw
      have hat : ∀ c ∈ t, isSpaceChar c = true → c = ' ' :=
        fun c hc => ha c (List.mem_cons_of_mem a hc)
      have hrec := ih hwt hat false
      simp only [collapseGo, hs, if_false, Bool.false_eq_true]
      rw [hrec]
      simp only [Bool.false_and, Bool.and_false, if_neg (by simp : ¬(false = true))]
      cases pend <;> simp [headSp, hs]

theorem allowed_space_is_ascii (c : Char) (h1 : isAllowedChar c = true)
    (h2 : isSpaceChar c = true) : c = ' ' := by
  simp only [isSpaceChar, Bool.or_eq_true, beq_iff_eq] at h2
  rcases h2 with ((h | h) | h) | h
  · exact h
  all_goals (subst h; exact absurd h1 (by decide))

theorem allowed_not_quote (c : Char) (h1 : isAllowedChar c = true) :
    isQuoteChar c = false := by
  by_contra hq
  have hq' : isQuoteChar c = true := by
    cases h : isQuoteChar c
    · exact absurd h hq
    · rfl
  simp only [isQuoteChar, Bool.or_eq_true, beq_iff_eq] at hq'
  rcases hq' with ((((h | h) | h) | h) | h) | h <;>
    (subst h; exact absurd h1 (by decide))

theorem allowed_mapUnicode_fix (c : Char) (h : isAllowedChar c = true) :
    mapUnicodeChar c = c := by
  have h1 : c ≠ '–' := by intro e; rw [e] at h; exact absurd h (by decide)
  have h2 : c ≠ '—' := by intro e; rw [e] at h; exact absurd h (by decide)
  have h3 : c ≠ '‘' := by intro e; rw [e] at h; exact absurd h (by decide)
  have h4 : c ≠ '’' := by intro e; rw [e] at h; exact absurd h (by decide)
  have h5 : c ≠ '“' := by intro e; rw [e] at h; exact absurd h (by decide)
  have h6 : c ≠ '”' := by intro e; rw [e] at h; exact absurd h (by decide)
  simp [mapUnicodeChar, h1, h2, h3, h4, h5, h6]

theorem normalizeChars_allowed (l : List Char) (c : Char)
    (h : c ∈ normalizeChars l) : isAllowedChar c = true := by
  unfold normalizeChars collapseWs at h
  rcases collapseGo_mem _ _ _ h with h' | ⟨h1, _⟩
  · rw [h']; decide
  · have := mem_of_mem_dropWhile _ _ _ h1
    exact (List.mem_filter.mp this).2

theorem normalizeChars_wellSpaced (l : List Char) :
    wellSpaced (normalizeChars l) = true :=
  collapseGo_wellSpaced _ _

theorem normalizeChars_head (l : List Char) (c : Char)
    (h : (normalizeChars l).head? = some c) : isSpaceChar c = false := by
  unfold normalizeChars collapseWs at h
  set w := ((stripQuotes (trimWs l)).map mapUnicodeChar).filter isAllowedChar with hw
  have hhead : ∀ d, (w.dropWhile isSpaceChar).head? = some d → isSpaceChar d = false :=
    fun d hd => head?_dropWhile_false isSpaceChar w d hd
  rw [collapseGo_head? _ hhead] at h
  exact hhead c h

/-- The §4.2 normalizer is a fixed point on its own output. -/
theorem normalizeChars_idem (l : List Char) :
    normalizeChars (normalizeChars l) = normalizeChars l := by
  set y := normalizeChars l with hy
  have hall : ∀ c ∈ y, isAllowedChar c = true := fun c hc => normalizeChars_allowed l c hc
  have hwell : wellSpaced y = true := normalizeChars_wellSpaced l
  have hhead : ∀ c, y.head? = some c → isSpaceChar c = false :=
    fun c hc => normalizeChars_head l c hc
  have hlast : ∀ c, y.getLast? = some c → isSpaceChar c = false :=
    fun c hc => wellSpaced_getLast y c hwell hc
  have hascii : ∀ c ∈ y, isSpaceChar c = true → c = ' ' :=
    fun c hc hs => allowed_space_is_ascii c (hall c hc) hs
  have step1 : trimWs y = y := by
    unfold trimWs
    rw [dropWhile_eq_self_of_head _ _ hhead]
    exact dropTrailing_eq_self _ _ hlast
  have step2 : stripQuotes y = y := by
    unfold stripQuotes
    rw [dropWhile_eq_self_of_head _ _
      (fun c hc => allowed_not_quote c (hall c (List.mem_of_mem_head? hc)))]
    exact dropTrailing_eq_self _ _
      (fun c hc => allowed_not_quote c (hall c (List.mem_of_mem_getLast? hc)))
  have step3 : y.map mapUnicodeChar = y := by
    rw [List.map_congr_left (fun c hc => allowed_mapUnicode_fix c (hall c hc))]
    exact List.map_id y
  have step4 : y.filter isAllowedChar = y := List.filter_eq_self.mpr hall
  have step5 : collapseWs y = y := by
    unfold collapseWs
    rw [dropWhile_eq_self_of_head _ _ hhead]
    rw [collapseGo_eq_self y hwell hascii false]
    simp
  show normalizeChars y = y
  unfold normalizeChars
  rw [step1, step2, step3, step4]
  exact step5

theorem runMutationLog_not_mem (ops : List ElemRef) (processed : List ElemRef)
    (e : ElemRef) (he : e ∈ runMutationLog processed ops) : e ∉ processed := by
  induction ops generalizing processed with
  | nil => simp [runMutationLog] at he
  | cons a rest ih =>
    by_cases hm : a ∈ processed
    · rw [runMutationLog, if_pos hm] at he
      exact ih processed he
    · rw [runMutationLog, if_neg hm] at he
      rcases List.mem_cons.mp he with h | h
      · exact h ▸ hm
      · have := ih (a :: processed) h
        exact fun hc => this (List.mem_cons_of_mem a hc)

theorem runMutationLog_nodup (ops : List ElemRef) (processed : List ElemRef) :
    (runMutationLog processed ops).Nodup := by
  induction ops generalizing processed with
  | nil => exact List.nodup_nil
  | cons a rest ih =>
    by_cases hm : a ∈ processed
    · rw [runMutationLog, if_pos hm]
      exact ih processed
    · rw [runMutationLog, if_neg hm]
      refine List.nodup_cons.mpr ⟨?_, ih (a :: processed)⟩
      intro ha
      exact runMutationLog_not_mem rest (a :: processed) a ha (List.mem_cons_self a processed)

theorem planLookup_append_some (plan l2 : ContentPlan) (k v : String)
    (h : planLookup plan k = some v) : planLookup (plan ++ l2) k = some v := by
  induction plan with
  | nil => simp [planLookup] at h
  | cons kv rest ih =>
    obtain ⟨k', v'⟩ := kv
    rw [List.cons_append, planLookup]
    rw [planLookup] at h
    by_cases hk : k' = k
    · rwa [if_pos hk] at h ⊢
    · rw [if_neg hk] at h ⊢
      exact ih h

theorem planLookup_append_none (plan l2 : ContentPlan) (k : String)
    (h : planLookup plan k = none) : planLookup (plan ++ l2) k = planLookup l2 k := by
  induction plan with
  | nil => simp
  | cons kv rest ih =>
    obtain ⟨k', v'⟩ := kv
    rw [List.cons_append, planLookup]
    rw [planLookup] at h
    by_cases hk : k' = k
    · rw [if_pos hk] at h
      exact absurd h (by simp)
    · rw [if_neg hk] at h ⊢
      exact ih h

theorem setIfAbsent_preserve (plan : ContentPlan) (k v k0 v0 : String)
    (h : planLookup plan k0 = some v0) :
    planLookup (setIfAbsent plan k v) k0 = some v0 := by
  unfold setIfAbsent
  split
  · exact h
  · exact planLookup_append_some plan [(k, v)] k0 v0 h

theorem applyTier_cons (plan : ContentPlan) (kv : String × String)
    (tier : List (String × String)) :
    applyTier plan (kv :: tier) = applyTier (setIfAbsent plan kv.1 kv.2) tier := rfl

theorem applyTier_preserve (tier : List (String × String)) (plan : ContentPlan)
    (k v : String) (h : planLookup plan k = some v) :
    planLookup (applyTier plan tier) k = some v := by
  induction tier generalizing plan with
  | nil => exact h
  | cons kv rest ih =>
    rw [applyTier_cons]
    exact ih _ (setIfAbsent_preserve plan kv.1 kv.2 k v h)

theorem setIfAbsent_lookup_none (plan : ContentPlan) (k v k0 : String)
    (hk : k ≠ k0) (h : planLookup plan k0 = none) :
    planLookup (setIfAbsent plan k v) k0 = none := by
  unfold setIfAbsent
  split
  · exact h
  · rw [planLookup_append_none plan [(k, v)] k0 h, planLookup, if_neg hk, planLookup]

theorem applyTier_fill (tier : List (String × String)) (plan : ContentPlan)
    (k : String) (h : planLookup plan k = none) :
    planLookup (applyTier plan tier) k = planLookup tier k := by
  induction tier generalizing plan with
  | nil => exact h
  | cons kv rest ih =>
    obtain ⟨k', v'⟩ := kv
    rw [applyTier_cons, planLookup]
    by_cases hk : k' = k
    · subst hk
      have hset : planLookup (setIfAbsent plan k' v') k' = some v' := by
        unfold setIfAbsent
        rw [if_neg (by simp [h])]
        rw [planLookup_append_none plan [(k', v')] k' h, planLookup, if_pos rfl]
      rw [if_pos rfl]
      exact applyTier_preserve rest _ k' v' hset
    · rw [if_neg hk]
      exact ih _ (setIfAbsent_lookup_none plan k' v' k hk h)

theorem pixelsToInches_inchesToPixels (w : ℚ) :
    |pixelsToInches (inchesToPixels w) - w| ≤ 1 / 144 := by
  unfold pixelsToInches inchesToPixels
  have h : |((round (w * 72) : ℤ) : ℚ) - w * 72| ≤ 1 / 2 := by
    rw [abs_sub_comm]
    exact abs_sub_round (w * 72)
  have heq : ((round (w * 72) : ℤ) : ℚ) / 72 - w =
      (((round (w * 72) : ℤ) : ℚ) - w * 72) / 72 := by ring
  rw [heq, abs_div, abs_of_pos (by norm_num : (0:ℚ) < 72)]
  calc |((round (w * 72) : ℤ) : ℚ) - w * 72| / 72 ≤ (1 / 2) / 72 := by
        exact (div_le_div_iff_of_pos_right (by norm_num)).mpr h
    _ = 1 / 144 := by norm_num

theorem assignLinks_getElem? (urls phs : List String) (i : Nat) :
    (assignLinks urls phs)[i]? =
      (match phs[i]? with
       | some ph => some (ph, urls[i]?)
       | none => none) := by
  induction phs generalizing urls i with
  | nil => cases urls <;> simp [assignLinks]
  | cons ph phs' ih =>
    cases urls with
    | nil =>
      cases i with
      | zero => simp [assignLinks]
      | succ n => simpa [assignLinks] using ih [] n
    | cons u us =>
      cases i with
      | zero => simp [assignLinks]
      | succ n => simpa [assignLinks] using ih us n

theorem assignLinks_nil_filterMap (phs : List String) :
    (assignLinks [] phs).filterMap (fun p => p.2) = [] := by
  induction phs with
  | nil => rfl
  | cons ph phs' ih => simpa [assignLinks] using ih

theorem assignLinks_filterMap (urls phs : List String)
    (h : urls.length ≤ phs.length) :
    (assignLinks urls phs).filterMap (fun p => p.2) = urls := by
  induction phs generalizing urls with
  | nil =>
    have : urls = [] := List.length_eq_zero.mp (Nat.le_zero.mp (by simpa using h))
    subst this
    rfl
  | cons ph phs' ih =>
    cases urls with
    | nil => exact assignLinks_nil_filterMap (ph :: phs')
    | cons u us =>
      have h' : us.length ≤ phs'.length := by simpa using h
      simpa [assignLinks] using ih us h'

theorem assignLinks_nil_countP (phs : List String) :
    (assignLinks [] phs).countP (fun p => p.2.isSome) = 0 := by
  induction phs with
  | nil => rfl
  | cons ph phs' ih => simpa [assignLinks, List.countP_cons] using ih

theorem assignLinks_countP (urls phs : List String)
    (h : urls.length ≤ phs.length) :
    (assignLinks urls phs).countP (fun p => p.2.isSome) = urls.length := by
  induction phs generalizing urls with
  | nil =>
    have : urls = [] := List.length_eq_zero.mp (Nat.le_zero.mp (by simpa using h))
    subst this
    rfl
  | cons ph phs' ih =>
    cases urls with
    | nil => exact assignLinks_nil_countP (ph :: phs')
    | cons u us =>
      have h' : us.length ≤ phs'.length := by simpa using h
      simp [assignLinks, List.countP_cons, ih us h']

theorem pollStep_terminal_inactive (st : AppPollState) (r : PollResp)
    (h : isTerminalResp r = true) : (pollStep st r).active = false := by
  cases r with
  | error e => rfl
  | ok p =>
    obtain ⟨j, l⟩ := p
    simp only [isTerminalResp, Bool.or_eq_true, beq_iff_eq] at h
    by_cases hf : j.status = JobPhase.failed
    · simp [pollStep, hf]
    · rcases h with hs | hs
      · simp [pollStep, hs, hf]
      · exact absurd hs hf

theorem pollStep_nonterminal_active (st : AppPollState) (r : PollResp)
    (h : isTerminalResp r = false) : (pollStep st r).active = st.active := by
  cases r with
  | error e => simp [isTerminalResp] at h
  | ok p =>
    obtain ⟨j, l⟩ := p
    simp only [isTerminalResp, Bool.or_eq_false_iff, beq_eq_false_iff_ne, ne_eq] at h
    simp [pollStep, h.1, h.2]

theorem pollLoop_inactive (st : AppPollState) (resps : List PollResp)
    (h : st.active = false) : pollLoop st resps = (st, 0) := by
  cases resps with
  | nil => rfl
  | cons r rest => simp [pollLoop, h]

theorem le_rule_step {c : Prop} [Decidable c] (p k : ℕ) :
    p ≤ if c then max p k else p := by
  split
  · exact Nat.le_max_left p k
  · exact le_rfl

theorem le_rule_ladder {a b c : Prop} [Decidable a] [Decidable b] [Decidable c]
    (p x y z : ℕ) :
    p ≤ if a then max p x else if b then max p y else if c then max p z else p := by
  split
  · exact Nat.le_max_left p x
  · split
    · exact Nat.le_max_left p y
    · split
      · exact Nat.le_max_left p z
      · exact le_rfl

theorem computeProgress_ge_five (logs : List String) (elapsed : Nat) :
    5 ≤ computeProgress logs elapsed := by
  unfold computeProgress
  lift_lets
  extract_lets t p0 p1 p2 p3 p4 p5 p6 p7 p8 p9 p10 p11 p12 p13
  have e0 : p0 = 5 := rfl
  have h1 : p0 ≤ p1 := le_rule_step p0 15
  have h2 : p1 ≤ p2 := le_rule_step p1 25
  have h3 : p2 ≤ p3 := le_rule_step p2 35
  have h4 : p3 ≤ p4 := le_rule_step p3 45
  have h5 : p4 ≤ p5 := le_rule_step p4 50
  have h6 : p5 ≤ p6 := le_rule_step p5 55
  have h7 : p6 ≤ p7 := le_rule_step p6 65
  have h8 : p7 ≤ p8 := le_rule_step p7 70
  have h9 : p8 ≤ p9 := le_rule_step p8 75
  have h10 : p9 ≤ p10 := le_rule_step p9 85
  have h11 : p10 ≤ p11 := le_rule_step p10 90
  have h12 : p11 ≤ p12 := le_rule_step p11 95
  have h13 : p12 ≤ p13 := le_rule_ladder p12 _ _ _
  omega

/-! ## Claim theorems -/

/-- C1: the name normalizer is idempotent — for every raw token name `x`,
`normalize (normalize x) = normalize x`, where `normalize` trims whitespace,
strips leading/trailing quote characters, maps unicode dash/quote variants to
ASCII, removes characters outside `[A-Za-z0-9 _-]`, and collapses whitespace
runs to one space. -/
theorem normalize_idempotent (s : String) : normalize (normalize s) = normalize s :=
  congrArg String.mk (normalizeChars_idem s.data)

/-- C2: in every run, no `(slide_id, element_id)` pair is mutated twice — the
mutation log produced by consulting the ProcessedSet before every mutating
operation and inserting after a successful mutation contains no duplicate
pair, from any starting processed set. -/
theorem mutation_log_at_most_once (processed : List ElemRef) (ops : List ElemRef) :
    (runMutationLog processed ops).Nodup :=
  runMutationLog_nodup ops processed

/-- C3: the ContentPlan build is tier-monotone — with tiers applied in
priority order (explicit override > AI comprehensive > AI targeted >
auto-fill > safe default), a key set by the time any tier boundary is reached
keeps exactly that value in the finished plan; no lower-priority tier
overwrites it. -/
theorem contentplan_tier_monotone
    (overrides comprehensive targeted autoFill defaults : List (String × String))
    (k v : String) :
    (planLookup (applyTier [] overrides) k = some v →
      planLookup (buildContentPlan overrides comprehensive targeted autoFill defaults) k = some v) ∧
    (planLookup (applyTier (applyTier [] overrides) comprehensive) k = some v →
      planLookup (buildContentPlan overrides comprehensive targeted autoFill defaults) k = some v) ∧
    (planLookup (applyTier (applyTier (applyTier [] overrides) comprehensive) targeted) k = some v →
      planLookup (buildContentPlan overrides comprehensive targeted autoFill defaults) k = some v) ∧
    (planLookup (applyTier (applyTier (applyTier (applyTier [] overrides) comprehensive) targeted) autoFill) k = some v →
      planLookup (buildContentPlan overrides comprehensive targeted autoFill defaults) k = some v) := by
  unfold buildContentPlan
  exact ⟨fun h => applyTier_preserve _ _ _ _ (applyTier_preserve _ _ _ _
      (applyTier_preserve _ _ _ _ (applyTier_preserve _ _ _ _ h))),
    fun h => applyTier_preserve _ _ _ _ (applyTier_preserve _ _ _ _
      (applyTier_preserve _ _ _ _ h)),
    fun h => applyTier_preserve _ _ _ _ (applyTier_preserve _ _ _ _ h),
    fun h => applyTier_preserve _ _ _ _ h⟩

/-- C3 witness: with an explicit override setting `companyName`, a
lower-priority default for the same key does not overwrite it. -/
theorem contentplan_tier_monotone_witness :
    planLookup (applyTier [] [("companyName", "Acme")]) "companyName" = some "Acme" ∧
    planLookup (buildContentPlan [("companyName", "Acme")] [] []
      [("companyName", "AutoFill")] [("companyName", "Default")]) "companyName" = some "Acme" :=
  ⟨by decide, (contentplan_tier_monotone [("companyName", "Acme")] [] []
    [("companyName", "AutoFill")] [("companyName", "Default")] "companyName" "Acme").1 (by decide)⟩

/-- C4: when the one-shot comprehensive generation request fails, the
comprehensive tier contributes nothing (the run's content phase equals the
build with an empty comprehensive tier and an empty tier is the identity on
any partial plan, so the tier is skipped atomically), keys left unset by the
higher-priority tier are resolved by the targeted tier, and the phase still
returns `.ok` — the failure never propagates as a run failure. -/
theorem comprehensive_failure_skipped
    (f : GenFailure) (overrides targeted autoFill defaults : List (String × String)) :
    contentPhase overrides (Except.error f) targeted autoFill defaults =
      Except.ok (buildContentPlan overrides [] targeted autoFill defaults) ∧
    (∀ plan : ContentPlan, applyTier plan (comprehensiveTier (Except.error f)) = plan) ∧
    (∀ k : String, planLookup (applyTier [] overrides) k = none →
      planLookup (applyTier (applyTier (applyTier [] overrides)
        (comprehensiveTier (Except.error f))) targeted) k = planLookup targeted k) := by
  refine ⟨rfl, fun plan => rfl, fun k hk => ?_⟩
  show planLookup (applyTier (applyTier [] overrides) targeted) k = planLookup targeted k
  exact applyTier_fill targeted _ k hk

/-- C4 witness: a transport failure of the comprehensive request leaves the
plan to the targeted tier for `Heading_1` and the phase succeeds. -/
theorem comprehensive_failure_skipped_witness :
    contentPhase [("companyName", "Acme")] (Except.error GenFailure.transport)
        [("Heading_1", "Vision")] [] [] =
      Except.ok (buildContentPlan [("companyName", "Acme")] []
        [("Heading_1", "Vision")] [] []) ∧
    planLookup (applyTier [] [("companyName", "Acme")]) "Heading_1" = none ∧
    planLookup (applyTier (applyTier (applyTier [] [("companyName", "Acme")])
        (comprehensiveTier (Except.error GenFailure.transport)))
        [("Heading_1", "Vision")]) "Heading_1" =
      planLookup [("Heading_1", "Vision")] "Heading_1" :=
  ⟨(comprehensive_failure_skipped GenFailure.transport [("companyName", "Acme")]
      [("Heading_1", "Vision")] [] []).1,
   by decide,
   (comprehensive_failure_skipped GenFailure.transport [("companyName", "Acme")]
      [("Heading_1", "Vision")] [] []).2.2 "Heading_1" (by decide)⟩

/-- C5: image placement preserves geometry as a round trip — for a
placeholder sized in inches, the placed element's pixel size converted back to
inches is within rounding tolerance (1/144 in, i.e. half a pixel at 72 px/in)
of the original, its transform keeps `translate_x`, `translate_y` and
`rotate`, the copied transform is normalized to `scale_x = scale_y = 1`, and
the source placeholder's transform is unchanged. -/
theorem geometry_round_trip (ph : PlaceholderGeom) (_h : ph.size.unit = DimUnit.IN) :
    |pixelsToInches (placeImage ph).1.width_px - ph.size.width| ≤ 1 / 144 ∧
    |pixelsToInches (placeImage ph).1.height_px - ph.size.height| ≤ 1 / 144 ∧
    (placeImage ph).1.transform.translate_x = ph.transform.translate_x ∧
    (placeImage ph).1.transform.translate_y = ph.transform.translate_y ∧
    (placeImage ph).1.transform.rotate = ph.transform.rotate ∧
    (placeImage ph).1.transform.scale_x = 1 ∧
    (placeImage ph).1.transform.scale_y = 1 ∧
    (placeImage ph).2 = ph :=
  ⟨pixelsToInches_inchesToPixels ph.size.width,
   pixelsToInches_inchesToPixels ph.size.height,
   rfl, rfl, rfl, rfl, rfl, rfl⟩

/-- C5 witness: the 8.47×10.63 inch hero-image placeholder with a residual
scale of 2×3 round-trips within tolerance and the copy is normalized. -/
theorem geometry_round_trip_witness :
    |pixelsToInches (placeImage ⟨⟨847/100, 1063/100, DimUnit.IN⟩,
        ⟨5, 7, 2, 3, 90⟩⟩).1.width_px - 847/100| ≤ 1 / 144 ∧
    (placeImage ⟨⟨847/100, 1063/100, DimUnit.IN⟩,
        ⟨5, 7, 2, 3, 90⟩⟩).1.transform.scale_x = 1 ∧
    (placeImage ⟨⟨847/100, 1063/100, DimUnit.IN⟩,
        ⟨5, 7, 2, 3, 90⟩⟩).2.transform.scale_x = 2 :=
  ⟨(geometry_round_trip ⟨⟨847/100, 1063/100, DimUnit.IN⟩, ⟨5, 7, 2, 3, 90⟩⟩ rfl).1,
   (geometry_round_trip ⟨⟨847/100, 1063/100, DimUnit.IN⟩, ⟨5, 7, 2, 3, 90⟩⟩ rfl).2.2.2.2.2.1,
   rfl⟩

/-- C6: hyperlink assignment is an order-preserving injection — the k-th
extracted URL binds to the k-th placeholder, with `k` URLs and `n ≥ k`
placeholders exactly `k` placeholders receive a link, the received links are
the extracted URLs in order (hence pairwise distinct when the extracted URLs
are), and the remaining `n−k` placeholders receive none. -/
theorem hyperlink_assignment (urls phs : List String)
    (hk : urls.length ≤ phs.length) (hnd : urls.Nodup) :
    (∀ i : Nat, (assignLinks urls phs)[i]? =
      (match phs[i]? with
       | some ph => some (ph, urls[i]?)
       | none => none)) ∧
    (assignLinks urls phs).countP (fun p => p.2.isSome) = urls.length ∧
    (assignLinks urls phs).filterMap (fun p => p.2) = urls ∧
    ((assignLinks urls phs).filterMap (fun p => p.2)).Nodup :=
  ⟨fun i => assignLinks_getElem? urls phs i,
   assignLinks_countP urls phs hk,
   assignLinks_filterMap urls phs hk,
   (assignLinks_filterMap urls phs hk).symm ▸ hnd⟩

/-- C6 witness: three extracted URLs against six `follow_reference_link_N`
placeholders — links 1–3 bound in order, links 4–6 unlinked. -/
theorem hyperlink_assignment_witness :
    (assignLinks ["https://a.com", "https://b.com", "https://c.com"]
        ["follow_reference_link_1", "follow_reference_link_2", "follow_reference_link_3",
         "follow_reference_link_4", "follow_reference_link_5", "follow_reference_link_6"]).countP
      (fun p => p.2.isSome) = 3 ∧
    (assignLinks ["https://a.com", "https://b.com", "https://c.com"]
        ["follow_reference_link_1", "follow_reference_link_2", "follow_reference_link_3",
         "follow_reference_link_4", "follow_reference_link_5", "follow_reference_link_6"]).filterMap
      (fun p => p.2) = ["https://a.com", "https://b.com", "https://c.com"] :=
  ⟨((hyperlink_assignment ["https://a.com", "https://b.com", "https://c.com"]
      ["follow_reference_link_1", "follow_reference_link_2", "follow_reference_link_3",
       "follow_reference_link_4", "follow_reference_link_5", "follow_reference_link_6"]
      (by decide) (by decide)).2.1),
   ((hyperlink_assignment ["https://a.com", "https://b.com", "https://c.com"]
      ["follow_reference_link_1", "follow_reference_link_2", "follow_reference_link_3",
       "follow_reference_link_4", "follow_reference_link_5", "follow_reference_link_6"]
      (by decide) (by decide)).2.2.1)⟩

/-- C7: every hyperlink placeholder's `(slide_id, element_id)` is snapshotted
before the text-replacement mutation runs, and the link-apply phase addresses
elements only through this pre-mutation snapshot: the emitted link operations
equal those computed from the pre-mutation snapshot, every operation's target
is a pre-mutation hyperlink placeholder address, and the operations do not
depend on the replacement function at all. -/
theorem hyperlink_pre_mutation_snapshot (d : SlideDoc) (f : String → String)
    (urls : List String) :
    (runLinksPhase d f urls).2 = linkApplyOps (hyperlinkSnapshot d) urls ∧
    (∀ op, op ∈ (runLinksPhase d f urls).2 →
      (op.slide_id, op.element_id) ∈ hyperlinkSnapshot d) ∧
    (∀ g : String → String, (runLinksPhase d f urls).2 = (runLinksPhase d g urls).2) := by
  refine ⟨rfl, ?_, fun g => rfl⟩
  intro op hop
  show (op.slide_id, op.element_id) ∈ hyperlinkSnapshot d
  have hop' : op ∈ linkApplyOps (hyperlinkSnapshot d) urls := hop
  unfold linkApplyOps at hop'
  obtain ⟨p, hp, hpe⟩ := List.mem_map.mp hop'
  have h1 : p.1 ∈ hyperlinkSnapshot d := (List.of_mem_zip hp).1
  rw [← hpe]
  simpa using h1

/-- C7 witness: a document with one hyperlink placeholder element — the
emitted link operation targets exactly the pre-mutation snapshot address, even
though the replacement function rewrites the token text. -/
theorem hyperlink_pre_mutation_snapshot_witness :
    (⟨"s1", "e1", "https://a.com"⟩ : LinkOp) ∈
      (runLinksPhase ⟨[⟨"s1", "e1", "\x7b\x7bfollow_reference_link_1\x7d\x7d"⟩]⟩
        (fun _ => "Follow Reference Link") ["https://a.com"]).2 ∧
    (("s1", "e1") : String × String) ∈
      hyperlinkSnapshot ⟨[⟨"s1", "e1", "\x7b\x7bfollow_reference_link_1\x7d\x7d"⟩]⟩ :=
  ⟨by decide,
   (hyperlink_pre_mutation_snapshot
      ⟨[⟨"s1", "e1", "\x7b\x7bfollow_reference_link_1\x7d\x7d"⟩]⟩
      (fun _ => "Follow Reference Link") ["https://a.com"]).2.1
     ⟨"s1", "e1", "https://a.com"⟩ (by decide)⟩

/-- C8: type classification of an unmapped canonical name is a pure function
of the name, applying the rules in fixed first-match-wins order: image family
→ IMAGE, then `color` substring → COLOR, then non-company `logo*` → EMOJI,
then heading patterns → TITLE/SUBTITLE, then paragraph patterns → PARAGRAPH,
else TEXT. -/
theorem classify_precedence (n : String) :
    (isImageFamilyName n = true → classifyName n = PlaceholderType.IMAGE) ∧
    (isImageFamilyName n = false → containsColorName n = true →
      classifyName n = PlaceholderType.COLOR) ∧
    (isImageFamilyName n = false → containsColorName n = false →
      isEmojiLogoName n = true → classifyName n = PlaceholderType.EMOJI) ∧
    (isImageFamilyName n = false → containsColorName n = false →
      isEmojiLogoName n = false → isHeadingName n = true →
      classifyName n = (if isSubtitleName n then PlaceholderType.SUBTITLE
        else PlaceholderType.TITLE)) ∧
    (isImageFamilyName n = false → containsColorName n = false →
      isEmojiLogoName n = false → isHeadingName n = false →
      isParagraphName n = true → classifyName n = PlaceholderType.PARAGRAPH) ∧
    (isImageFamilyName n = false → containsColorName n = false →
      isEmojiLogoName n = false → isHeadingName n = false →
      isParagraphName n = false → classifyName n = PlaceholderType.TEXT) := by
  refine ⟨?_, ?_, ?_, ?_, ?_, ?_⟩ <;>
    (intros; simp_all [classifyName])

/-- C8 witness: `logo_color_1` contains both `logo` and `color`; it is not in
the image family, so the `color` rule fires before the `logo` emoji rule and
the name classifies as COLOR. -/
theorem classify_precedence_witness :
    isImageFamilyName "logo_color_1" = false ∧
    containsColorName "logo_color_1" = true ∧
    isEmojiLogoName "logo_color_1" = true ∧
    classifyName "logo_color_1" = PlaceholderType.COLOR :=
  ⟨by decide, by decide, by decide,
   (classify_precedence "logo_color_1").2.1 (by decide) (by decide)⟩

/-- C9 counterexample: starting from the reset state, the component's own
updates — queued, four running recomputations on "step 3" logs that bring the
smoothing reference to 35, a failure, then a queued restart (which sets the
display to 5 without touching the reference, ProgressBar.tsx lines 42-47) —
leave the display at 5 with a stale reference of 35.  The next recomputation
while running jumps the display from 5 to 35 (the `calculatedProgress <
lastProgressRef` branch, lines 193-195): a 30-point increase in a single
running update, refuting the claimed 10-point per-update bound. -/
theorem progressbar_jump_counterexample :
    let stale := pbUpdate (pbUpdate (pbUpdate (pbUpdate (pbUpdate (pbUpdate
        (pbUpdate (pbUpdate ⟨0, 0, []⟩ PBStatus.idle [] 0) PBStatus.queued [] 0)
        PBStatus.running ["step 3"] 0) PBStatus.running ["step 3"] 0)
        PBStatus.running ["step 3"] 0) PBStatus.running ["step 3"] 0)
        PBStatus.failed [] 0) PBStatus.queued [] 0
    stale.progress = 5 ∧
    (pbUpdate stale PBStatus.running [] 0).progress = 35 ∧
    ¬((pbUpdate stale PBStatus.running [] 0).progress ≤ stale.progress + 10) := by
  decide

/-- C9 (amended): in the ProgressBar component, a recomputation while the
status is `running` never decreases the displayed progress — both from a
state where the display equals the smoothing reference and from the queued
entry display of at most 5 (the log/time estimate never falls below 5); every
running recomputation leaves the display equal to the smoothing reference, so
any recomputation from such a synced state — that is, every update after the
first of a running sequence — increases the display by at most 10 points (the
first update after a queued restart that follows a failure may instead jump
up to the stale reference, see the counterexample); when the status becomes
`succeeded` the progress is set to exactly 100. -/
theorem progressbar_running_monotone (st : PBState) (logs : List String)
    (elapsed : Nat) :
    (st.progress = st.lastProgress →
      st.progress ≤ (pbUpdate st PBStatus.running logs elapsed).progress ∧
      (pbUpdate st PBStatus.running logs elapsed).progress ≤ st.progress + 10) ∧
    (st.progress ≤ 5 →
      st.progress ≤ (pbUpdate st PBStatus.running logs elapsed).progress) ∧
    (pbUpdate st PBStatus.running logs elapsed).progress =
      (pbUpdate st PBStatus.running logs elapsed).lastProgress ∧
    (pbUpdate st PBStatus.succeeded logs elapsed).progress = 100 := by
  have hrun : pbUpdate st PBStatus.running logs elapsed =
      runningUpdate st (computeProgress logs elapsed) := rfl
  rw [hrun]
  set c := computeProgress logs elapsed with hcdef
  have hc5 : 5 ≤ c := by rw [hcdef]; exact computeProgress_ge_five logs elapsed
  refine ⟨fun hsync => ?_, fun hentry => ?_, ?_, rfl⟩ <;>
    (unfold runningUpdate; split_ifs with h1 h2 <;> simp_all <;> omega)

/-- C9 witness: from a synced state at 5% a running recomputation with empty
logs stays within the bounds; from the stale restart state (display 5,
reference 35) the display still does not decrease; the display and reference
are synced after the update; and a succeeded status shows exactly 100. -/
theorem progressbar_running_monotone_witness :
    ((⟨5, 5, []⟩ : PBState).progress ≤ (pbUpdate ⟨5, 5, []⟩ PBStatus.running [] 0).progress ∧
      (pbUpdate ⟨5, 5, []⟩ PBStatus.running [] 0).progress ≤
        (⟨5, 5, []⟩ : PBState).progress + 10) ∧
    (⟨5, 35, []⟩ : PBState).progress ≤ (pbUpdate ⟨5, 35, []⟩ PBStatus.running [] 0).progress ∧
    (pbUpdate ⟨5, 5, []⟩ PBStatus.running [] 0).progress =
      (pbUpdate ⟨5, 5, []⟩ PBStatus.running [] 0).lastProgress ∧
    (pbUpdate ⟨5, 5, []⟩ PBStatus.succeeded [] 0).progress = 100 :=
  ⟨(progressbar_running_monotone ⟨5, 5, []⟩ [] 0).1 rfl,
   (progressbar_running_monotone ⟨5, 35, []⟩ [] 0).2.1 (by decide),
   (progressbar_running_monotone ⟨5, 5, []⟩ [] 0).2.2.1,
   (progressbar_running_monotone ⟨5, 5, []⟩ [] 0).2.2.2⟩

/-- C10: in the App polling loop, once a polled response is terminal (a job
status of `succeeded` or `failed`, or a thrown request error) the interval is
cleared, so exactly the ticks up to and including the terminal one issue
`getJob`/`getJobLogs` requests and none after; and on `succeeded` the result
URL is taken from the job's `result.presentation_url`. -/
theorem polling_stops_at_terminal (st : AppPollState) (pre : List PollResp)
    (r : PollResp) (post : List PollResp)
    (hact : st.active = true)
    (hpre : ∀ x ∈ pre, isTerminalResp x = false)
    (hr : isTerminalResp r = true) :
    (pollLoop st (pre ++ r :: post)).2 = pre.length + 1 ∧
    (∀ j l, r = Except.ok (j, l) → j.status = JobPhase.succeeded →
      (pollLoop st (pre ++ r :: post)).1.resultUrl = orNullStr j.presentation_url) := by
  induction pre generalizing st with
  | nil =>
    rw [List.nil_append]
    have hstep : (pollStep st r).active = false := pollStep_terminal_inactive st r hr
    have hloop : pollLoop st (r :: post) = ((pollStep st r), 1) := by
      rw [pollLoop, if_pos hact, pollLoop_inactive _ post hstep]
    rw [hloop]
    refine ⟨rfl, ?_⟩
    rintro j l rfl hs
    show (pollStep st (Except.ok (j, l))).resultUrl = orNullStr j.presentation_url
    have hnf : ¬j.status = JobPhase.failed := by
      rw [hs]; intro hc; cases hc
    simp [pollStep, hs, hnf]
  | cons x pre' ih =>
    have hx : isTerminalResp x = false := hpre x (List.mem_cons_self x pre')
    have hact' : (pollStep st x).active = true := by
      rw [pollStep_nonterminal_active st x hx, hact]
    have hpre' : ∀ y ∈ pre', isTerminalResp y = false :=
      fun y hy => hpre y (List.mem_cons_of_mem x hy)
    have hrec := ih (pollStep st x) hact' hpre'
    rw [List.cons_append, pollLoop, if_pos hact]
    exact ⟨by simp [hrec.1], fun j l hjl hs => by simpa using hrec.2 j l hjl hs⟩

/-- C10 witness: one non-terminal running poll, then a succeeded poll carrying
a presentation URL, then a further queued response that is never fetched — two
request pairs are issued in total and the result URL is stored. -/
theorem polling_stops_at_terminal_witness :
    (pollLoop ⟨true, JobPhase.queued, [], none⟩
      [Except.ok (⟨JobPhase.running, none⟩, ["log1"]),
       Except.ok (⟨JobPhase.succeeded, some "https://docs.google.com/presentation/d/ID/edit"⟩, ["log2"]),
       Except.ok (⟨JobPhase.queued, none⟩, [])]).2 = 2 ∧
    (pollLoop ⟨true, JobPhase.queued, [], none⟩
      [Except.ok (⟨JobPhase.running, none⟩, ["log1"]),
       Except.ok (⟨JobPhase.succeeded, some "https://docs.google.com/presentation/d/ID/edit"⟩, ["log2"]),
       Except.ok (⟨JobPhase.queued, none⟩, [])]).1.resultUrl =
      orNullStr (some "https://docs.google.com/presentation/d/ID/edit") := by
  have h := polling_stops_at_terminal ⟨true, JobPhase.queued, [], none⟩
    [Except.ok (⟨JobPhase.running, none⟩, ["log1"])]
    (Except.ok (⟨JobPhase.succeeded, some "https://docs.google.com/presentation/d/ID/edit"⟩, ["log2"]))
    [Except.ok (⟨JobPhase.queued, none⟩, [])]
    rfl (by intro x hx; simp only [List.mem_singleton] at hx; rw [hx]; rfl) rfl
  exact ⟨h.1, h.2 _ _ rfl rfl⟩

end AutoPPT
